import Mathlib

/-!
Verification of the relationship-graph model of a community graph bot
(`src/app.py`): canonical edge representation, the connect / delete /
cleargraph mutation protocol against the per-scope store, and the
view-building (NoData) behaviour.  User identifiers are the decimal
strings `str(member.id)`; edges are the two-element lists produced by
Python's `sorted`, stored in MongoDB arrays (`$addToSet`, `$pull`).
-/

/-- A user identifier: `str(member.id)` in the source. -/
abbrev UserId := String

/-- An edge as stored: a two-element list of user ids (`sorted([id1, id2])`). -/
abbrev GEdge := List UserId

/-- The per-scope MongoDB document: `{nodes: [...], edges: [[...]]}`. -/
structure Graph where
  nodes : List UserId
  edges : List GEdge
deriving DecidableEq, Repr

/-- Python's `<=` on strings, on the underlying character lists: lexicographic
comparison by code point. -/
def leChars : List Char → List Char → Bool
  | [], _ => true
  | _ :: _, [] => false
  | a :: as, b :: bs =>
      if a.toNat < b.toNat then true
      else if b.toNat < a.toNat then false
      else leChars as bs

/-- Python's `<=` on strings. -/
def strLe (a b : String) : Bool := leChars a.data b.data

/-- `sorted([str(member1.id), str(member2.id)])` (app.py lines 278 and 398):
the canonical form of the edge between two users. -/
def sortedPair (a b : UserId) : GEdge :=
  if strLe a b then [a, b] else [b, a]

/-- `itertools.combinations(l, 2)`: all pairs, in order of first occurrence. -/
def combinations2 {α : Type} : List α → List (α × α)
  | [] => []
  | x :: xs => xs.map (fun y => (x, y)) ++ combinations2 xs

/-- Python `set.add`, modelled on insertion-ordered lists: add if absent. -/
def setAdd (s : List UserId) (x : UserId) : List UserId :=
  if x ∈ s then s else s ++ [x]

/-- MongoDB `$addToSet` with `$each`: append each element of `xs` to the array
`arr` unless it is already present. -/
def addToSetEach {α : Type} [DecidableEq α] (arr : List α) (xs : List α) : List α :=
  xs.foldl (fun acc x => if x ∈ acc then acc else acc ++ [x]) arr

/-- MongoDB `$pull` on the `edges` array: remove every occurrence of `e`. -/
def pullEdge (edges : List GEdge) (e : GEdge) : List GEdge :=
  edges.filter (fun x => x ≠ e)

/-- Python's `str.lower()` (on the ASCII command tokens involved here):
lowercase each character. -/
def lowerStr (s : String) : String := ⟨s.data.map Char.toLower⟩

/-- The graph a scope's stored document denotes; a missing document
(`find_one` returned `None`) reads as the empty graph. -/
def storeGraph : Option Graph → Graph
  | some g => g
  | none => ⟨[], []⟩

/-- The accumulator of the `connect` loop (app.py lines 272-284):
`new_edges`, `new_nodes`, `already_connected`. -/
structure PlanState where
  newEdges : List GEdge
  newNodes : List UserId
  alreadyConnected : List (UserId × UserId)
deriving DecidableEq, Repr

/-- One iteration of the loop `for member1, member2 in combinations(...)`
(app.py lines 277-284): canonicalize the pair, then either record it as
already connected or append the new edge and both endpoints. -/
def planStep (existing : List GEdge) (st : PlanState) (p : UserId × UserId) : PlanState :=
  let edge := sortedPair p.1 p.2
  if edge ∈ existing then
    { st with alreadyConnected := st.alreadyConnected ++ [p] }
  else
    { st with
        newEdges := st.newEdges ++ [edge],
        newNodes := setAdd (setAdd st.newNodes p.1) p.2 }

/-- The whole `connect` planning loop over every pair of mentioned users. -/
def plan (participants : List UserId) (existing : List GEdge) : PlanState :=
  (combinations2 participants).foldl (planStep existing) ⟨[], [], []⟩

/-- Outcome reported by the `connect` command. -/
inductive ConnectReport
  | invalidRequest
  | alreadyConnected
  | added
deriving DecidableEq, Repr

/-- The `connect` command's effect on the scope's stored document
(app.py lines 261-298): reject fewer than two mentions; plan new edges
against the edges fetched at the start; if none are new report "already
connected" without touching the store, otherwise `$addToSet` the new nodes
and edges (upsert). -/
def connect (store : Option Graph) (mentions : List UserId) :
    Option Graph × ConnectReport :=
  if mentions.length < 2 then (store, ConnectReport.invalidRequest)
  else if (plan mentions (storeGraph store).edges).newEdges = [] then
    (store, ConnectReport.alreadyConnected)
  else
    (some ⟨addToSetEach (storeGraph store).nodes
             (plan mentions (storeGraph store).edges).newNodes,
           addToSetEach (storeGraph store).edges
             (plan mentions (storeGraph store).edges).newEdges⟩,
     ConnectReport.added)

/-- Outcome reported by the `delete` command. -/
inductive DeleteReport
  | invalidRequest
  | deleted
  | notFound
deriving DecidableEq, Repr

/-- The `delete` command's effect on the scope's stored document
(app.py lines 392-408): require exactly two mentions, canonicalize the
edge, `$pull` it from the stored edge array, and report whether the update
modified the document. -/
def delete (store : Option Graph) (mentions : List UserId) :
    Option Graph × DeleteReport :=
  match mentions with
  | [m1, m2] =>
      match store with
      | none => (none, DeleteReport.notFound)
      | some g =>
          (some { g with edges := pullEdge g.edges (sortedPair m1 m2) },
           if sortedPair m1 m2 ∈ g.edges then DeleteReport.deleted
           else DeleteReport.notFound)
  | _ => (store, DeleteReport.invalidRequest)

/-- Outcome reported by the `cleargraph` command. -/
inductive ClearReport
  | timedOut
  | cancelled
  | cleared
  | nothingToClear
deriving DecidableEq, Repr

/-- The confirmation phase and clear of `cleargraph` (app.py lines 348-362),
after the reply has been awaited: `reply = none` is the 30-second timeout;
a reply whose lowercased content is not "yes" cancels; otherwise
`delete_one` removes the scope's document, reporting whether one existed. -/
def cleargraph (store : Option Graph) (reply : Option String) :
    Option Graph × ClearReport :=
  match reply with
  | none => (store, ClearReport.timedOut)
  | some content =>
      if lowerStr content ≠ "yes" then (store, ClearReport.cancelled)
      else
        match store with
        | some _ => (none, ClearReport.cleared)
        | none => (none, ClearReport.nothingToClear)

/-- A chat message as seen by the confirmation wait. -/
structure Msg where
  author : String
  channel : String
  content : String
deriving DecidableEq, Repr

/-- `bot.wait_for('message', check=check, timeout=30.0)` with
`check(m) = (m.author == ctx.author and m.channel == ctx.channel)`
(app.py lines 345-349): the first message of the window that passes the
check; `none` when no message of the window does (the timeout). -/
def waitForReply (auth chan : String) (window : List Msg) : Option Msg :=
  window.find? (fun m => m.author == auth && m.channel == chan)

/-- The whole `cleargraph` confirmation flow: await the requester's first
message in the channel within the window, then act on its content. -/
def cleargraphFlow (store : Option Graph) (auth chan : String)
    (window : List Msg) : Option Graph × ClearReport :=
  cleargraph store ((waitForReply auth chan window).map Msg.content)

/-- `nx.Graph(); G.add_nodes_from(nodes); G.add_edges_from(edges)`
(app.py lines 101-103 and 147-149): the node set is the stored nodes plus
every endpoint of a stored edge (networkx adds missing endpoints). -/
def buildNx (g : Graph) : Graph :=
  { nodes := addToSetEach (addToSetEach [] g.nodes) g.edges.flatten,
    edges := g.edges }

/-- The display-copy loop (app.py lines 106-110 and 152-156): remove every
node that does not resolve to a current member, and with it every incident
edge (networkx `remove_node` drops incident edges). -/
def filterMembers (g : Graph) (isMember : UserId → Bool) : Graph :=
  { nodes := g.nodes.filter isMember,
    edges := g.edges.filter (fun e => e.all isMember) }

/-- The data path of `generate_pyvis_html` (app.py lines 139-201): `none`
is the sentinel NoData result (the function returns `None`); otherwise the
membership-filtered display graph that is handed to the renderer.  The
NoData check tests the stored `nodes` array, before any filtering. -/
def generate_pyvis_html (store : Option Graph) (isMember : UserId → Bool) :
    Option Graph :=
  match store with
  | none => none
  | some g =>
      if g.nodes.length = 0 then none
      else some (filterMembers (buildNx g) isMember)

/-- The data path of `send_graph_image` (app.py lines 92-122): identical
stored-data check and membership filtering; `none` is the "No graph data
available" early return. -/
def send_graph_image (store : Option Graph) (isMember : UserId → Bool) :
    Option Graph :=
  match store with
  | none => none
  | some g =>
      if g.nodes.length = 0 then none
      else some (filterMembers (buildNx g) isMember)

/-- The invariant of the data model: every endpoint of a stored edge is in
the stored node set. -/
def endpointsClosed (g : Graph) : Prop :=
  ∀ e ∈ g.edges, ∀ x ∈ e, x ∈ g.nodes

/-! ### Order lemmas for the canonical pair -/

lemma leChars_total : ∀ as bs : List Char, leChars as bs = true ∨ leChars bs as = true
  | [], _ => Or.inl rfl
  | _ :: _, [] => Or.inr rfl
  | a :: as, b :: bs => by
      rcases Nat.lt_trichotomy a.toNat b.toNat with h | h | h
      · left; simp [leChars, h]
      · have h' : ¬ a.toNat < b.toNat := by omega
        have h'' : ¬ b.toNat < a.toNat := by omega
        rcases leChars_total as bs with ih | ih
        · left; simp [leChars, h', h'', ih]
        · right; simp [leChars, h', h'', ih]
      · right; simp [leChars, h]

lemma leChars_antisymm : ∀ as bs : List Char,
    leChars as bs = true → leChars bs as = true → as = bs
  | [], [], _, _ => rfl
  | [], _ :: _, _, h2 => by simp [leChars] at h2
  | _ :: _, [], h1, _ => by simp [leChars] at h1
  | a :: as, b :: bs, h1, h2 => by
      by_cases hab : a.toNat < b.toNat
      · have : ¬ leChars (b :: bs) (a :: as) = true := by
          simp [leChars, hab, Nat.lt_asymm hab]
        exact absurd h2 this
      · by_cases hba : b.toNat < a.toNat
        · simp [leChars, hab, hba] at h1
        · have hval : a = b := by
            have : a.toNat = b.toNat := by omega
            exact Char.eq_of_val_eq (UInt32.ext this)
          simp [leChars, hab, hba] at h1 h2
          rw [hval, leChars_antisymm as bs h1 h2]

lemma strLe_total (a b : String) : strLe a b = true ∨ strLe b a = true :=
  leChars_total a.data b.data

lemma strLe_antisymm (a b : String) (h1 : strLe a b = true) (h2 : strLe b a = true) :
    a = b :=
  String.ext (leChars_antisymm a.data b.data h1 h2)

/-- Membership in a canonical pair is membership in the unordered pair. -/
lemma mem_sortedPair (c a b : UserId) : c ∈ sortedPair a b ↔ c = a ∨ c = b := by
  unfold sortedPair
  by_cases h : strLe a b
  · simp [h]
  · simp only [if_neg h, List.mem_cons, List.mem_singleton]
    tauto

/-- A canonical pair determines its endpoints up to swapping. -/
lemma sortedPair_inj {a b c d : UserId} (h : sortedPair a b = sortedPair c d) :
    (a = c ∧ b = d) ∨ (a = d ∧ b = c) := by
  unfold sortedPair at h
  by_cases h1 : strLe a b <;> by_cases h2 : strLe c d <;>
    simp [h1, h2] at h <;> tauto

example : sortedPair "2" "1" = ["1", "2"] := by decide
example : connect none ["1", "2", "3"] =
    (some ⟨["1", "2", "3"], [["1", "2"], ["1", "3"], ["2", "3"]]⟩,
     ConnectReport.added) := by decide
example : connect none ["1", "1", "2"] =
    (some ⟨["1", "2"], [["1", "1"], ["1", "2"]]⟩, ConnectReport.added) := by decide

/-! ### Lemmas about the store's set-union primitives -/

lemma addToSetEach_cons {α : Type} [DecidableEq α] (arr : List α) (y : α) (ys : List α) :
    addToSetEach arr (y :: ys) =
      addToSetEach (if y ∈ arr then arr else arr ++ [y]) ys := rfl

lemma mem_addToSetEach {α : Type} [DecidableEq α] (xs : List α) :
    ∀ (arr : List α) (x : α), x ∈ addToSetEach arr xs ↔ x ∈ arr ∨ x ∈ xs := by
  induction xs with
  | nil => intro arr x; simp [addToSetEach]
  | cons y ys ih =>
      intro arr x
      rw [addToSetEach_cons]
      by_cases hy : y ∈ arr
      · rw [ih]
        simp only [if_pos hy, List.mem_cons]
        constructor
        · rintro (h | h)
          · exact Or.inl h
          · exact Or.inr (Or.inr h)
        · rintro (h | h | h)
          · exact Or.inl h
          · exact Or.inl (h ▸ hy)
          · exact Or.inr h
      · rw [ih]
        simp only [if_neg hy, List.mem_append, List.mem_singleton, List.mem_cons]
        tauto

lemma addToSetEach_nodup {α : Type} [DecidableEq α] (xs : List α) :
    ∀ arr : List α, arr.Nodup → (addToSetEach arr xs).Nodup := by
  induction xs with
  | nil => intro arr h; exact h
  | cons y ys ih =>
      intro arr h
      rw [addToSetEach_cons]
      by_cases hy : y ∈ arr
      · rw [if_pos hy]; exact ih arr h
      · rw [if_neg hy]
        refine ih _ ?_
        simp [List.nodup_append, h, hy]

lemma addToSetEach_of_disjoint {α : Type} [DecidableEq α] (xs : List α) :
    ∀ arr : List α, xs.Nodup → (∀ x ∈ xs, x ∉ arr) → addToSetEach arr xs = arr ++ xs := by
  induction xs with
  | nil => intro arr _ _; simp [addToSetEach]
  | cons y ys ih =>
      intro arr hnd hdis
      rw [addToSetEach_cons, if_neg (hdis y (List.mem_cons_self y ys))]
      rw [ih (arr ++ [y]) hnd.of_cons]
      · simp
      · intro x hx
        simp only [List.mem_append, List.mem_singleton]
        rintro (h | h)
        · exact hdis x (List.mem_cons_of_mem y hx) h
        · exact (List.nodup_cons.mp hnd).1 (h ▸ hx)

lemma mem_setAdd (s : List UserId) (y x : UserId) :
    x ∈ setAdd s y ↔ x ∈ s ∨ x = y := by
  unfold setAdd
  by_cases h : y ∈ s
  · simp only [if_pos h]
    constructor
    · exact Or.inl
    · rintro (hx | rfl)
      · exact hx
      · exact h
  · simp [if_neg h]

lemma setAdd_nodup (s : List UserId) (y : UserId) (h : s.Nodup) :
    (setAdd s y).Nodup := by
  unfold setAdd
  by_cases hy : y ∈ s
  · simpa [hy]
  · simp [hy, List.nodup_append, h]

lemma pullEdge_eq_erase (edges : List GEdge) (e : GEdge) (hnd : edges.Nodup) :
    pullEdge edges e = edges.erase e := by
  rw [List.Nodup.erase_eq_filter hnd]
  unfold pullEdge
  apply List.filter_congr
  intro x _
  by_cases h : x = e <;> simp [h]

/-! ### Lemmas about the pair enumeration -/

lemma mem_combinations2 {α : Type} {l : List α} {p : α × α}
    (h : p ∈ combinations2 l) : p.1 ∈ l ∧ p.2 ∈ l := by
  induction l with
  | nil => simp [combinations2] at h
  | cons a xs ih =>
      simp only [combinations2, List.mem_append, List.mem_map] at h
      rcases h with ⟨y, hy, rfl⟩ | h
      · exact ⟨List.mem_cons_self a xs, List.mem_cons_of_mem a hy⟩
      · exact ⟨List.mem_cons_of_mem a (ih h).1, List.mem_cons_of_mem a (ih h).2⟩

lemma combinations2_ne {l : List UserId} (hnd : l.Nodup) :
    ∀ p ∈ combinations2 l, p.1 ≠ p.2 := by
  induction l with
  | nil => intro p hp; simp [combinations2] at hp
  | cons a xs ih =>
      intro p hp
      simp only [combinations2, List.mem_append, List.mem_map] at hp
      rcases hp with ⟨y, hy, rfl⟩ | hp
      · intro h
        refine (List.nodup_cons.mp hnd).1 ?_
        rw [show a = y from h]
        exact hy
      · exact ih (List.nodup_cons.mp hnd).2 p hp

lemma combinations2_length {α : Type} (l : List α) :
    (combinations2 l).length = Nat.choose l.length 2 := by
  induction l with
  | nil => simp [combinations2]
  | cons a xs ih =>
      simp only [combinations2, List.length_append, List.length_map, ih,
        List.length_cons]
      rw [Nat.choose_succ_succ, Nat.choose_one_right, Nat.add_comm]

lemma exists_pair_of_mem {l : List UserId} (hlen : 2 ≤ l.length) {x : UserId}
    (hx : x ∈ l) : ∃ p ∈ combinations2 l, x = p.1 ∨ x = p.2 := by
  match l, hlen with
  | a :: b :: ys, _ =>
      rcases List.mem_cons.mp hx with rfl | hx'
      · exact ⟨(x, b), by simp [combinations2], Or.inl rfl⟩
      · refine ⟨(a, x), ?_, Or.inr rfl⟩
        simp only [combinations2, List.mem_append, List.mem_map]
        exact Or.inl ⟨x, hx', rfl⟩

lemma combinations2_map_sortedPair_nodup {l : List UserId} (hnd : l.Nodup) :
    ((combinations2 l).map (fun p => sortedPair p.1 p.2)).Nodup := by
  induction l with
  | nil => simp [combinations2]
  | cons a xs ih =>
      have ha : a ∉ xs := (List.nodup_cons.mp hnd).1
      have hxs : xs.Nodup := (List.nodup_cons.mp hnd).2
      simp only [combinations2, List.map_append, List.map_map]
      apply List.Nodup.append
      · rw [List.nodup_map_iff_inj_on hxs]
        intro y hy y' hy' h
        simp only [Function.comp_apply] at h
        rcases sortedPair_inj h with ⟨_, h2⟩ | ⟨h1, h2⟩
        · exact h2
        · exact absurd (h1 ▸ hy') ha
      · exact ih hxs
      · intro e he he'
        simp only [List.mem_map, Function.comp_apply] at he he'
        rcases he with ⟨y, hy, rfl⟩
        rcases he' with ⟨p, hp, hpe⟩
        rcases sortedPair_inj hpe with ⟨h1, _⟩ | ⟨_, h2⟩
        · exact ha (h1 ▸ (mem_combinations2 hp).1)
        · exact ha (h2 ▸ (mem_combinations2 hp).2)

/-! ### Lemmas about the connect planning loop -/

lemma foldl_planStep_newEdges (existing : List GEdge) :
    ∀ (L : List (UserId × UserId)) (st : PlanState),
      (L.foldl (planStep existing) st).newEdges =
        st.newEdges ++
          (L.filter (fun p => sortedPair p.1 p.2 ∉ existing)).map
            (fun p => sortedPair p.1 p.2) := by
  intro L
  induction L with
  | nil => intro st; simp
  | cons p ps ih =>
      intro st
      simp only [List.foldl_cons]
      by_cases h : sortedPair p.1 p.2 ∈ existing
      · rw [ih]
        simp [planStep, h]
      · rw [ih]
        simp [planStep, h]

lemma foldl_planStep_newNodes_mem (existing : List GEdge) :
    ∀ (L : List (UserId × UserId)) (st : PlanState) (x : UserId),
      x ∈ (L.foldl (planStep existing) st).newNodes ↔
        x ∈ st.newNodes ∨
          ∃ p ∈ L, sortedPair p.1 p.2 ∉ existing ∧ (x = p.1 ∨ x = p.2) := by
  intro L
  induction L with
  | nil => intro st x; simp
  | cons p ps ih =>
      intro st x
      simp only [List.foldl_cons, List.mem_cons]
      by_cases h : sortedPair p.1 p.2 ∈ existing
      · rw [ih]
        simp only [planStep, if_pos h]
        constructor
        · rintro (hx | ⟨q, hq, hfr, hxq⟩)
          · exact Or.inl hx
          · exact Or.inr ⟨q, Or.inr hq, hfr, hxq⟩
        · rintro (hx | ⟨q, (rfl | hq), hfr, hxq⟩)
          · exact Or.inl hx
          · exact absurd h hfr
          · exact Or.inr ⟨q, hq, hfr, hxq⟩
      · rw [ih]
        simp only [planStep, if_neg h, mem_setAdd]
        constructor
        · rintro (((hx | hx) | hx) | ⟨q, hq, hfr, hxq⟩)
          · exact Or.inl hx
          · exact Or.inr ⟨p, Or.inl rfl, h, Or.inl hx⟩
          · exact Or.inr ⟨p, Or.inl rfl, h, Or.inr hx⟩
          · exact Or.inr ⟨q, Or.inr hq, hfr, hxq⟩
        · rintro (hx | ⟨q, (rfl | hq), hfr, hxq⟩)
          · exact Or.inl (Or.inl (Or.inl hx))
          · rcases hxq with rfl | rfl
            · exact Or.inl (Or.inl (Or.inr rfl))
            · exact Or.inl (Or.inr rfl)
          · exact Or.inr ⟨q, hq, hfr, hxq⟩

lemma foldl_planStep_newNodes_nodup (existing : List GEdge) :
    ∀ (L : List (UserId × UserId)) (st : PlanState),
      st.newNodes.Nodup → (L.foldl (planStep existing) st).newNodes.Nodup := by
  intro L
  induction L with
  | nil => intro st h; exact h
  | cons p ps ih =>
      intro st h
      simp only [List.foldl_cons]
      apply ih
      unfold planStep
      by_cases hp : sortedPair p.1 p.2 ∈ existing
      · simpa [hp]
      · simp only [if_neg hp]
        exact setAdd_nodup _ _ (setAdd_nodup _ _ h)

lemma plan_newEdges (participants : List UserId) (existing : List GEdge) :
    (plan participants existing).newEdges =
      ((combinations2 participants).filter
          (fun p => sortedPair p.1 p.2 ∉ existing)).map
        (fun p => sortedPair p.1 p.2) := by
  unfold plan
  rw [foldl_planStep_newEdges]
  rfl

lemma plan_newNodes_mem (participants : List UserId) (existing : List GEdge)
    (x : UserId) :
    x ∈ (plan participants existing).newNodes ↔
      ∃ p ∈ combinations2 participants,
        sortedPair p.1 p.2 ∉ existing ∧ (x = p.1 ∨ x = p.2) := by
  unfold plan
  rw [foldl_planStep_newNodes_mem]
  simp

lemma plan_newNodes_nodup (participants : List UserId) (existing : List GEdge) :
    (plan participants existing).newNodes.Nodup :=
  foldl_planStep_newNodes_nodup existing _ _ List.nodup_nil

/-- C9: For all user identifiers A and B, the canonical edge computed for the
pair (A,B) equals the canonical edge computed for (B,A): the same unordered
connection is represented identically by the connect and delete operations,
and duplicate detection is a single equality check. -/
theorem sortedPair_comm (a b : UserId) : sortedPair a b = sortedPair b a := by
  unfold sortedPair
  by_cases h1 : strLe a b
  · by_cases h2 : strLe b a
    · have : a = b := strLe_antisymm a b h1 h2
      simp [this]
    · simp [h1, h2]
  · rcases strLe_total a b with h | h
    · exact absurd h h1
    · simp [h1, h]

/-! ### The connect operation -/

/-- C2 (counterexample): the connect operation performs no de-duplication of
its participants list.  Given the literal list [A, A, B] it canonicalizes the
pair (A, A) to the self-loop [A, A], stores it, and the stored edge set is
not just {A-B}. -/
theorem connect_dup_self_loop :
    connect none ["1", "1", "2"] =
      (some ⟨["1", "2"], [["1", "1"], ["1", "2"]]⟩, ConnectReport.added) ∧
    ["1", "1"] ∈ (storeGraph (connect none ["1", "1", "2"]).1).edges := by
  decide

/-- C2 (amended): when the participants list has pairwise-distinct entries —
which is what the mention layer hands the command — every edge the connect
operation adds to the store is the canonical edge of two distinct users, so
no self-loop is ever created or stored; and connecting the distinct pair
[A, B] on an empty store yields exactly the single edge A-B. -/
theorem connect_nodup_no_self_loop (store : Option Graph) (ps : List UserId)
    (hnd : ps.Nodup) :
    ∀ e ∈ (storeGraph (connect store ps).1).edges,
      e ∈ (storeGraph store).edges ∨
        ∃ a b : UserId, a ≠ b ∧ e = sortedPair a b := by
  intro e he
  unfold connect at he
  by_cases hlen : ps.length < 2
  · rw [if_pos hlen] at he
    exact Or.inl he
  · rw [if_neg hlen] at he
    by_cases hne : (plan ps (storeGraph store).edges).newEdges = []
    · rw [if_pos hne] at he
      exact Or.inl he
    · rw [if_neg hne] at he
      simp only [storeGraph] at he
      rw [mem_addToSetEach] at he
      rcases he with he | he
      · exact Or.inl he
      · rw [plan_newEdges] at he
        simp only [List.mem_map] at he
        rcases he with ⟨p, hp, rfl⟩
        exact Or.inr ⟨p.1, p.2,
          combinations2_ne hnd p (List.mem_of_mem_filter hp), rfl⟩

/-- Witness for `connect_nodup_no_self_loop`: the distinct pair ["1", "2"] on
an empty store; the resulting store holds exactly the edge ["1", "2"], and
the theorem applies to each stored edge. -/
theorem connect_nodup_no_self_loop_witness :
    connect none ["1", "2"] =
      (some ⟨["1", "2"], [["1", "2"]]⟩, ConnectReport.added) ∧
    (∀ e ∈ (storeGraph (connect none ["1", "2"]).1).edges,
      e ∈ (storeGraph (none : Option Graph)).edges ∨
        ∃ a b : UserId, a ≠ b ∧ e = sortedPair a b) :=
  ⟨by decide, connect_nodup_no_self_loop none ["1", "2"] (by decide)⟩

/-- C3 (counterexample): the connect operation's precondition check counts
list entries, not distinct users: the list ["1", "1"] has one distinct entry
yet is not rejected — the command proceeds and mutates the store (adding the
self-loop ["1", "1"]). -/
theorem connect_dup_pair_not_rejected :
    (["1", "1"] : List UserId).dedup.length = 1 ∧
    connect none ["1", ""] ≠ (none, ConnectReport.invalidRequest) ∧
    connect none ["1", "1"] =
      (some ⟨["1"], [["1", "1"]]⟩, ConnectReport.added) := by
  decide

/-- C3 (amended): the connect operation fails with the usage error exactly
when the participants list has fewer than 2 entries (distinct or not), and
in that case the store is untouched. -/
theorem connect_invalid_request (store : Option Graph) (ms : List UserId) :
    ((connect store ms).2 = ConnectReport.invalidRequest ↔ ms.length < 2) ∧
    (ms.length < 2 → connect store ms = (store, ConnectReport.invalidRequest)) := by
  unfold connect
  by_cases hlen : ms.length < 2
  · simp [hlen]
  · by_cases hne : (plan ms (storeGraph store).edges).newEdges = [] <;>
      simp [hlen, hne]

/-- C5: connecting a pair whose canonical edge is already stored reports
"already connected" and performs no store mutation: the stored document
(node set and edge set) afterwards is the one from before. -/
theorem connect_already_connected (g : Graph) (a b : UserId)
    (h : sortedPair a b ∈ g.edges) :
    connect (some g) [a, b] = (some g, ConnectReport.alreadyConnected) := by
  unfold connect
  have hlen : ¬ ([a, b] : List UserId).length < 2 := by simp
  rw [if_neg hlen]
  have hplan : (plan [a, b] g.edges).newEdges = [] := by
    rw [plan_newEdges]
    have : combinations2 [a, b] = [(a, b)] := rfl
    rw [this]
    simp [h]
  simp [storeGraph, hplan]

/-- Witness for `connect_already_connected`: the stored graph already holding
edge ["1", "2"]; connecting ["1", "2"] again leaves it untouched. -/
theorem connect_already_connected_witness :
    connect (some ⟨["1", "2"], [["1", "2"]]⟩) ["1", "2"] =
      (some ⟨["1", "2"], [["1", "2"]]⟩, ConnectReport.alreadyConnected) :=
  connect_already_connected ⟨["1", "2"], [["1", "2"]]⟩ "1" "2" (by decide)

/-! ### The view-building operations -/

/-- C1 (counterexample): a stored graph whose single node no longer resolves
to a current member: the membership-filtered graph has an empty node set,
yet both view-building operations produce a (blank) view instead of the
NoData sentinel — the emptiness check runs on the stored node set, before
filtering. -/
theorem view_empty_filtered_not_nodata :
    (filterMembers (buildNx ⟨["1"], []⟩) (fun _ => false)).nodes = [] ∧
    generate_pyvis_html (some ⟨["1"], []⟩) (fun _ => false) ≠ none ∧
    send_graph_image (some ⟨["1"], []⟩) (fun _ => false) ≠ none := by
  decide

/-- C1 (amended): the view-building operations (static image and interactive
link) return the NoData sentinel exactly when the STORED graph is absent or
has an empty stored node set; membership filtering happens only after that
check, so a nonempty stored graph always yields a rendered view, even when
the filter empties it. -/
theorem view_nodata_iff_stored_empty (store : Option Graph)
    (isMember : UserId → Bool) :
    (generate_pyvis_html store isMember = none ↔ (storeGraph store).nodes = []) ∧
    (send_graph_image store isMember = none ↔ (storeGraph store).nodes = []) ∧
    generate_pyvis_html store isMember = send_graph_image store isMember := by
  cases store with
  | none => simp [generate_pyvis_html, send_graph_image, storeGraph]
  | some g =>
      by_cases h : g.nodes.length = 0
      · simp [generate_pyvis_html, send_graph_image, storeGraph, h,
          List.length_eq_zero.mp h]
      · have h' : g.nodes ≠ [] := by
          intro hh
          exact h (by simp [hh])
        simp [generate_pyvis_html, send_graph_image, storeGraph, h, h']

/-! ### The delete operation -/

/-- C6: for a stored graph with duplicate-free edge array (as `$addToSet`
maintains) and two distinct users: if their canonical edge is stored, delete
removes exactly that edge (every other edge survives, and an edge survives
iff it is not the deleted one), keeps every node including the two
endpoints, and reports success; if it is absent, the store is unaltered and
delete reports "not found". -/
theorem delete_edge_spec (g : Graph) (a b : UserId) (_hab : a ≠ b)
    (hnd : g.edges.Nodup) :
    (sortedPair a b ∈ g.edges →
       delete (some g) [a, b] =
         (some ⟨g.nodes, g.edges.erase (sortedPair a b)⟩, DeleteReport.deleted)) ∧
    (sortedPair a b ∉ g.edges →
       delete (some g) [a, b] = (some g, DeleteReport.notFound)) ∧
    (∀ e, e ∈ (storeGraph (delete (some g) [a, b]).1).edges ↔
        e ∈ g.edges ∧ e ≠ sortedPair a b) ∧
    (storeGraph (delete (some g) [a, b]).1).nodes = g.nodes := by
  refine ⟨?_, ?_, ?_, ?_⟩
  · intro hmem
    simp only [delete, if_pos hmem]
    rw [pullEdge_eq_erase g.edges (sortedPair a b) hnd]
  · intro hmem
    have hfix : pullEdge g.edges (sortedPair a b) = g.edges := by
      apply List.filter_eq_self.mpr
      intro e he
      simp only [ne_eq, decide_not, Bool.not_eq_eq_eq_not, Bool.not_true,
        decide_eq_false_iff_not]
      intro hcontra
      exact hmem (hcontra ▸ he)
    simp only [delete, if_neg hmem, hfix]
  · intro e
    simp [delete, storeGraph, pullEdge, List.mem_filter]
  · simp [delete, storeGraph, pullEdge]

/-- Witness for `delete_edge_spec`: deleting the present edge ["1", "2"]
from a two-edge store removes exactly it and keeps both endpoints. -/
theorem delete_edge_spec_witness :
    delete (some ⟨["1", "2", "3"], [["1", "2"], ["1", "3"]]⟩) ["1", "2"] =
      (some ⟨["1", "2", "3"], [["1", "3"]]⟩, DeleteReport.deleted) :=
  ((delete_edge_spec ⟨["1", "2", "3"], [["1", "2"], ["1", "3"]]⟩ "1" "2"
      (by decide) (by decide)).1 (by decide)).trans (by decide)

/-! ### The cleargraph operation -/

/-- C7: a cleargraph request whose awaited reply is absent (the 30-second
timeout) or not the affirmative token leaves the stored graph exactly as it
was and never reports a clear: only an explicit affirmative reply triggers
the store clear. -/
theorem cleargraph_no_mutation_unless_yes (store : Option Graph)
    (reply : Option String)
    (h : ∀ s, reply = some s → lowerStr s ≠ "yes") :
    (cleargraph store reply).1 = store ∧
    (cleargraph store reply).2 ≠ ClearReport.cleared := by
  cases reply with
  | none => simp [cleargraph]
  | some s =>
      have hs := h s rfl
      simp [cleargraph, hs]

/-- Witness for `cleargraph_no_mutation_unless_yes`: a "no" reply over a
nonempty store. -/
theorem cleargraph_no_mutation_unless_yes_witness :
    (cleargraph (some ⟨["1", "2"], [["1", "2"]]⟩) (some "no")).1 =
      some ⟨["1", "2"], [["1", "2"]]⟩ ∧
    (cleargraph (some ⟨["1", "2"], [["1", "2"]]⟩) (some "no")).2 ≠
      ClearReport.cleared :=
  cleargraph_no_mutation_unless_yes _ _ (by
    intro s hs
    cases hs
    decide)

/-- C10: in the confirmation flow, the first message of the wait window from
the same requester in the same channel is the consumed reply (earlier
messages by others are skipped); the clear executes exactly when that
message's lowercased content is "yes", and any other content cancels with
the store untouched. -/
theorem cleargraph_first_reply (store : Option Graph) (auth chan : String)
    (pre post : List Msg) (m : Msg)
    (hpre : ∀ p ∈ pre, ¬ (p.author = auth ∧ p.channel = chan))
    (hm : m.author = auth) (hc : m.channel = chan) :
    waitForReply auth chan (pre ++ m :: post) = some m ∧
    (lowerStr m.content = "yes" →
       cleargraphFlow store auth chan (pre ++ m :: post) =
         (none, if store.isSome then ClearReport.cleared
                else ClearReport.nothingToClear)) ∧
    (lowerStr m.content ≠ "yes" →
       cleargraphFlow store auth chan (pre ++ m :: post) =
         (store, ClearReport.cancelled)) := by
  have hfind : waitForReply auth chan (pre ++ m :: post) = some m := by
    unfold waitForReply
    rw [List.find?_append]
    have hnone : pre.find? (fun x => x.author == auth && x.channel == chan) = none := by
      rw [List.find?_eq_none]
      intro p hp
      have := hpre p hp
      simp only [Bool.and_eq_true, beq_iff_eq]
      tauto
    rw [hnone]
    simp [hm, hc]
  refine ⟨hfind, ?_, ?_⟩
  · intro hyes
    unfold cleargraphFlow
    rw [hfind]
    cases store <;> simp [cleargraph, hyes]
  · intro hno
    unfold cleargraphFlow
    rw [hfind]
    simp [cleargraph, hno]

/-- Witness for `cleargraph_first_reply`: another user's message precedes
the requester's "Yes" in the channel; the requester's message is the reply
and the store is cleared. -/
theorem cleargraph_first_reply_witness :
    waitForReply "u" "c" ([⟨"v", "c", "no"⟩] ++ ⟨"u", "c", "Yes"⟩ :: []) =
      some ⟨"u", "c", "Yes"⟩ ∧
    (lowerStr (⟨"u", "c", "Yes"⟩ : Msg).content = "yes" →
       cleargraphFlow (some ⟨["1"], []⟩) "u" "c"
           ([⟨"v", "c", "no"⟩] ++ ⟨"u", "c", "Yes"⟩ :: []) =
         (none, if (some (⟨["1"], []⟩ : Graph)).isSome then ClearReport.cleared
                else ClearReport.nothingToClear)) ∧
    (lowerStr (⟨"u", "c", "Yes"⟩ : Msg).content ≠ "yes" →
       cleargraphFlow (some ⟨["1"], []⟩) "u" "c"
           ([⟨"v", "c", "no"⟩] ++ ⟨"u", "c", "Yes"⟩ :: []) =
         (some ⟨["1"], []⟩, ClearReport.cancelled)) :=
  cleargraph_first_reply (some ⟨["1"], []⟩) "u" "c" [⟨"v", "c", "no"⟩] []
    ⟨"u", "c", "Yes"⟩ (by decide) rfl rfl

/-! ### Fresh batch connect (C4) and the endpoint invariant (C8) -/

/-- C4: for n ≥ 2 pairwise-distinct participants none of whose pairwise
canonical edges pre-exist in the stored graph, connect succeeds and appends
exactly C(n,2) canonical edges — one per unordered pair — to the stored edge
array; the inserted node batch is exactly the n participant identifiers, and
the stored node set afterwards is the old one together with exactly the
participants. -/
theorem connect_fresh_inserts (store : Option Graph) (ps : List UserId)
    (hnd : ps.Nodup) (hlen : 2 ≤ ps.length)
    (hfresh : ∀ p ∈ combinations2 ps, sortedPair p.1 p.2 ∉ (storeGraph store).edges) :
    ∃ g', connect store ps = (some g', ConnectReport.added) ∧
      g'.edges = (storeGraph store).edges ++
        (combinations2 ps).map (fun p => sortedPair p.1 p.2) ∧
      g'.edges.length = (storeGraph store).edges.length + Nat.choose ps.length 2 ∧
      (∀ x, x ∈ g'.nodes ↔ x ∈ (storeGraph store).nodes ∨ x ∈ ps) ∧
      (∀ x, x ∈ (plan ps (storeGraph store).edges).newNodes ↔ x ∈ ps) ∧
      (plan ps (storeGraph store).edges).newNodes.length = ps.length := by
  have hfilter : (combinations2 ps).filter
      (fun p => sortedPair p.1 p.2 ∉ (storeGraph store).edges) = combinations2 ps := by
    apply List.filter_eq_self.mpr
    intro p hp
    simpa using hfresh p hp
  have hE : (plan ps (storeGraph store).edges).newEdges =
      (combinations2 ps).map (fun p => sortedPair p.1 p.2) := by
    rw [plan_newEdges, hfilter]
  have hEnodup : (plan ps (storeGraph store).edges).newEdges.Nodup := by
    rw [hE]
    exact combinations2_map_sortedPair_nodup hnd
  have hEdisj : ∀ e ∈ (plan ps (storeGraph store).edges).newEdges,
      e ∉ (storeGraph store).edges := by
    rw [hE]
    intro e he
    simp only [List.mem_map] at he
    rcases he with ⟨p, hp, rfl⟩
    exact hfresh p hp
  have hElen : (plan ps (storeGraph store).edges).newEdges.length =
      Nat.choose ps.length 2 := by
    rw [hE, List.length_map, combinations2_length]
  have hne : (plan ps (storeGraph store).edges).newEdges ≠ [] := by
    apply List.ne_nil_of_length_pos
    rw [hElen]
    exact Nat.choose_pos hlen
  have hNmem : ∀ x, x ∈ (plan ps (storeGraph store).edges).newNodes ↔ x ∈ ps := by
    intro x
    rw [plan_newNodes_mem]
    constructor
    · rintro ⟨p, hp, _, hx | hx⟩
      · exact hx ▸ (mem_combinations2 hp).1
      · exact hx ▸ (mem_combinations2 hp).2
    · intro hx
      rcases exists_pair_of_mem hlen hx with ⟨p, hp, hxp⟩
      exact ⟨p, hp, hfresh p hp, hxp⟩
  have hNlen : (plan ps (storeGraph store).edges).newNodes.length = ps.length := by
    have h1 := List.toFinset_card_of_nodup (plan_newNodes_nodup ps (storeGraph store).edges)
    have h2 := List.toFinset_card_of_nodup hnd
    have h3 : (plan ps (storeGraph store).edges).newNodes.toFinset = ps.toFinset := by
      apply Finset.ext
      intro x
      simp only [List.mem_toFinset]
      exact hNmem x
    rw [← h1, ← h2, h3]
  have hlen2 : ¬ ps.length < 2 := Nat.not_lt.mpr hlen
  refine ⟨⟨addToSetEach (storeGraph store).nodes
             (plan ps (storeGraph store).edges).newNodes,
           addToSetEach (storeGraph store).edges
             (plan ps (storeGraph store).edges).newEdges⟩, ?_, ?_, ?_, ?_, hNmem, hNlen⟩
  · unfold connect
    rw [if_neg hlen2, if_neg hne]
  · simp only
    rw [addToSetEach_of_disjoint _ _ hEnodup hEdisj, hE]
  · simp only
    rw [addToSetEach_of_disjoint _ _ hEnodup hEdisj, List.length_append, hElen]
  · intro x
    simp only
    rw [mem_addToSetEach]
    rw [hNmem x]

/-- Witness for `connect_fresh_inserts`: participants {A, B, C} = {"1", "2",
"3"} against an empty store: 3 = C(3,2) edges and exactly the 3 participant
nodes are stored. -/
theorem connect_fresh_inserts_witness :
    ∃ g', connect none ["1", "2", "3"] = (some g', ConnectReport.added) ∧
      g'.edges = (storeGraph (none : Option Graph)).edges ++
        (combinations2 ["1", "2", "3"]).map (fun p => sortedPair p.1 p.2) ∧
      g'.edges.length = (storeGraph (none : Option Graph)).edges.length +
        Nat.choose (["1", "2", "3"] : List UserId).length 2 ∧
      (∀ x, x ∈ g'.nodes ↔
        x ∈ (storeGraph (none : Option Graph)).nodes ∨ x ∈ ["1", "2", "3"]) ∧
      (∀ x, x ∈ (plan ["1", "2", "3"]
          (storeGraph (none : Option Graph)).edges).newNodes ↔
        x ∈ ["1", "2", "3"]) ∧
      (plan ["1", "2", "3"]
          (storeGraph (none : Option Graph)).edges).newNodes.length =
        (["1", "2", "3"] : List UserId).length :=
  connect_fresh_inserts none ["1", "2", "3"] (by decide) (by decide) (by decide)

/-- C8: the invariant "every endpoint of a stored edge is in the stored node
set" is preserved by every mutation operation: connect (for any mention
list), delete (for any mention list) and cleargraph (for any reply). -/
theorem endpointsClosed_preserved (store : Option Graph)
    (h : endpointsClosed (storeGraph store)) :
    (∀ ms, endpointsClosed (storeGraph (connect store ms).1)) ∧
    (∀ ms, endpointsClosed (storeGraph (delete store ms).1)) ∧
    (∀ reply, endpointsClosed (storeGraph (cleargraph store reply).1)) := by
  have hempty : endpointsClosed (⟨[], []⟩ : Graph) := by
    intro e he
    simp at he
  refine ⟨?_, ?_, ?_⟩
  · intro ms
    unfold connect
    by_cases hlen : ms.length < 2
    · rwa [if_pos hlen]
    · rw [if_neg hlen]
      by_cases hne : (plan ms (storeGraph store).edges).newEdges = []
      · rwa [if_pos hne]
      · rw [if_neg hne]
        intro e he x hx
        simp only [storeGraph] at he ⊢
        rw [mem_addToSetEach] at he ⊢
        rcases he with he | he
        · exact Or.inl (h e he x hx)
        · rw [plan_newEdges] at he
          simp only [List.mem_map] at he
          rcases he with ⟨p, hp, rfl⟩
          rw [List.mem_filter] at hp
          have hfr : sortedPair p.1 p.2 ∉ (storeGraph store).edges := by
            simpa using hp.2
          right
          rw [plan_newNodes_mem]
          exact ⟨p, hp.1, hfr, (mem_sortedPair x p.1 p.2).mp hx⟩
  · intro ms
    match ms with
    | [] => exact h
    | [_] => exact h
    | m1 :: m2 :: m3 :: rest => exact h
    | [m1, m2] =>
        cases store with
        | none => exact hempty
        | some g =>
            intro e he x hx
            simp only [delete, storeGraph, pullEdge, List.mem_filter] at he
            exact h e he.1 x hx
  · intro reply
    cases reply with
    | none => exact h
    | some s =>
        by_cases hs : lowerStr s ≠ "yes"
        · simp only [cleargraph, if_pos hs]
          exact h
        · simp only [cleargraph, if_neg hs]
          cases store with
          | none => exact hempty
          | some g => exact hempty

/-- Witness for `endpointsClosed_preserved`: a store satisfying the
invariant; every operation preserves it. -/
theorem endpointsClosed_preserved_witness :
    (∀ ms, endpointsClosed
        (storeGraph (connect (some ⟨["1", "2"], [["1", "2"]]⟩) ms).1)) ∧
    (∀ ms, endpointsClosed
        (storeGraph (delete (some ⟨["1", "2"], [["1", "2"]]⟩) ms).1)) ∧
    (∀ reply, endpointsClosed
        (storeGraph (cleargraph (some ⟨["1", "2"], [["1", "2"]]⟩) reply).1)) :=
  endpointsClosed_preserved (some ⟨["1", "2"], [["1", "2"]]⟩) (by
    unfold endpointsClosed
    decide)
